import Mathlib

/-!
Verification development for `hf-batch-downloader.py`, a batch downloader of
model artifacts.  The file is a shallow embedding of the script's core
functions — `check_disk_space`, `write_manifest`, `verify_checksums`,
`merge_gguf_parts`, `download_model`, and the scheduling loop of `main` —
together with theorems settling the specification claims about them.

Modelling conventions:
* External collaborators (`snapshot_download`, `hashlib.sha256`/`md5`) are
  oracles passed in as function parameters; the hash oracles map a file's
  content to its hex digest string.
* The filesystem is explicit data: a flat directory is an association list
  from file name to content, a tree is an inductive type.  Listing order of
  a real directory is modelled by list order; a newly created file appears
  at the end of its directory's listing.
* Python's unbounded integers are `Nat`/`Int`.  The single float comparison
  (`free / 1024**3 < required_gb`) is embedded as the exact rational
  inequality, written gcd-free over `Int` so that it evaluates by `decide`.
* Wall-clock durations and on-disk sizes are environmental and are not part
  of the embedded `JobResult`; no claim mentions them.
* String primitives used by the script (`endswith`, `split`, `lstrip`,
  substring search) are re-implemented by structural recursion on the
  character list so that every definition evaluates inside the kernel.
-/

namespace HFBD

/-- Does the first list occur as a leading segment of the second?  Models
Python's `str.startswith` on character lists. -/
def leadsB : List Char → List Char → Bool
  | [], _ => true
  | _ :: _, [] => false
  | a :: as, b :: bs => a == b && leadsB as bs

/-- Models Python's `s.startswith(pat)`. -/
def startsWithB (pat s : String) : Bool := leadsB pat.data s.data

/-- Models Python's `s.endswith(suf)` (match at the end of the string). -/
def endsWithB (suf s : String) : Bool := leadsB suf.data.reverse s.data.reverse

/-- Does `pat` occur as a contiguous sublist of `l`?  Models Python's
`pat in s` substring test. -/
def hasSubB (pat : List Char) : List Char → Bool
  | [] => leadsB pat []
  | c :: rest => leadsB pat (c :: rest) || hasSubB pat rest

/-- Characters of `l` strictly before the first occurrence of `pat`
(`pat` nonempty); the whole list when `pat` does not occur.  Models
Python's `s.split(pat)[0]`. -/
def beforeMarker (pat : List Char) : List Char → List Char
  | [] => []
  | c :: rest => if leadsB pat (c :: rest) then [] else c :: beforeMarker pat rest

/-- Split a character list at every character satisfying `p`, keeping empty
chunks; with empty chunks filtered out afterwards this is Python's
`str.split()` on whitespace runs. -/
def splitCharsBy (p : Char → Bool) (l : List Char) : List (List Char) :=
  l.foldr
    (fun c acc =>
      if p c then [] :: acc
      else
        match acc with
        | [] => [[c]]
        | t :: ts => (c :: t) :: ts)
    [[]]

/-- Models Python's `line.split()`: whitespace-delimited tokens, no empties. -/
def splitWs (line : String) : List String :=
  ((splitCharsBy Char.isWhitespace line.data).filter (fun t => !t.isEmpty)).map
    (fun t => ⟨t⟩)

/-- Lines of a text file, splitting at every newline character; models
iterating over an opened text file, where each processed token stream is
insensitive to the trailing newline. -/
def fileLines (content : String) : List String :=
  (splitCharsBy (fun c => c == '\n') content.data).map (fun t => ⟨t⟩)

/-- Drop every leading `*` character; models Python's `s.lstrip('*')`. -/
def dropStars : List Char → List Char
  | '*' :: rest => dropStars rest
  | l => l

/-- Models `parts[-1].lstrip('*')` applied to a token. -/
def stripStars (s : String) : String := ⟨dropStars s.data⟩

/-- ASCII lowercase of one character (used only to state case-insensitivity
facts about hex digests). -/
def lowerChar (c : Char) : Char :=
  if 65 ≤ c.toNat && c.toNat ≤ 90 then Char.ofNat (c.toNat + 32) else c

/-- ASCII lowercase of a string. -/
def lowerStr (s : String) : String := ⟨s.data.map lowerChar⟩

/-- Strict lexicographic order on character lists by code point; models
Python's `<` on `str`. -/
def lexLtB : List Char → List Char → Bool
  | [], [] => false
  | [], _ :: _ => true
  | _ :: _, [] => false
  | a :: as, b :: bs =>
    a.toNat < b.toNat || (a.toNat == b.toNat && lexLtB as bs)

/-- Non-strict string order used for sorting, `a ≤ b` iff `¬ b < a`. -/
def strLeB (a b : String) : Bool := !(lexLtB b.data a.data)

/-- Insert into a sorted list (stable insertion sort step). -/
def insSorted (x : String) : List String → List String
  | [] => [x]
  | y :: ys => if strLeB x y then x :: y :: ys else y :: insSorted x ys

/-- Models Python's `sorted` on a list of file names (same order as lexical
sort by code point; the script sorts full paths sharing one directory
prefix, which orders exactly as the bare names do). -/
def sortNames (l : List String) : List String := l.foldr insSorted []

/-! ## Integrity Verifier (`verify_checksums`, source lines 65–88) -/

/-- A flat directory for the verifier: file name paired with content.  File
content is a `String` standing for the raw bytes; the two hash oracles map
such content to a hex digest. -/
abbrev VDir := List (String × String)

/-- First file of that name (real directories have unique names). -/
def lookupFile (d : VDir) (n : String) : Option String :=
  (d.find? (fun e => e.1 == n)).map Prod.snd

/-- One logged event of the verifier loop. -/
inductive VerifyOutcome where
  | missing (ref : String)
  | verified (ref : String)
  | mismatch (ref expected actual : String)
deriving Repr, DecidableEq

/-- Source line 66: `f.endswith(('.sha256', '.sha256sum', '.md5'))`. -/
def isChecksumName (n : String) : Bool :=
  endsWithB ".sha256" n || endsWithB ".sha256sum" n || endsWithB ".md5" n

/-- Source line 80: `chk.endswith('sha256')` selects `hashlib.sha256`,
anything else selects `hashlib.md5`. -/
def usesSha256 (n : String) : Bool := endsWithB "sha256" n

/-- Source lines 71–88: process one line of a checksum manifest `chk`
against directory `d`.  `none` models the `continue` on short lines. -/
def verifyLine (sha256Hex md5Hex : String → String) (d : VDir) (chk : String)
    (line : String) : Option VerifyOutcome :=
  let toks := splitWs line
  if toks.length < 2 then none
  else
    let expected := toks.headD ""
    let ref := stripStars (toks.getLastD "")
    match lookupFile d ref with
    | none => some (.missing ref)
    | some content =>
      let actual := if usesSha256 chk then sha256Hex content else md5Hex content
      if actual == expected then some (.verified ref) else
        some (.mismatch ref expected actual)

/-- Source lines 65–88: scan the top level of `d` for recognized checksum
manifests and verify every well-formed line, returning the logged events in
order. -/
def verify_checksums (sha256Hex md5Hex : String → String) (d : VDir) :
    List VerifyOutcome :=
  ((d.map Prod.fst).filter isChecksumName).flatMap fun chk =>
    match lookupFile d chk with
    | none => []
    | some content =>
      (fileLines content).filterMap (verifyLine sha256Hex md5Hex d chk)

/-! ## Manifest Writer (`write_manifest`, source lines 55–62) -/

/-- A directory tree entry: a regular file or a subdirectory, in listing
order.  File content is irrelevant to the writer (it records names only). -/
inductive FTree where
  | file (name : String)
  | dir (name : String) (children : List FTree)
deriving Repr

/-- Relative paths of the regular files directly in `es`, prefixed. -/
def filesAt (pre : String) : List FTree → List String
  | [] => []
  | .file n :: rest => (pre ++ n) :: filesAt pre rest
  | .dir _ _ :: rest => filesAt pre rest

mutual
/-- Walk below one entry: nothing for a file (its own path was already
listed at its parent level), and for a directory its files then its
subdirectory walks — the order `os.walk` top-down yields. -/
def walkEntry (pre : String) : FTree → List String
  | .file _ => []
  | .dir n cs => filesAt (pre ++ n ++ "/") cs ++ walkList (pre ++ n ++ "/") cs
/-- Walks below each entry of a listing, in listing order. -/
def walkList (pre : String) : List FTree → List String
  | [] => []
  | e :: rest => walkEntry pre e ++ walkList pre rest
end

/-- All relative file paths yielded by `os.walk(local_dir)` top-down. -/
def osWalkFiles (pre : String) (es : List FTree) : List String :=
  filesAt pre es ++ walkList pre es

/-- Is there a top-level regular file of that name? -/
def hasTopFile (es : List FTree) (n : String) : Bool :=
  es.any fun e =>
    match e with
    | .file m => m == n
    | .dir _ _ => false

/-- Effect of `open(manifest_path, "w")` on the tree: creating
`manifest.txt` at the top level (appended to the listing) when absent;
overwriting leaves the listing unchanged. -/
def insertManifest (es : List FTree) : List FTree :=
  if hasTopFile es "manifest.txt" then es else es ++ [.file "manifest.txt"]

/-- Source lines 55–61: the manifest's lines.  The output file is created
(i.e. exists in the directory) before `os.walk` runs, so the walk sees it. -/
def write_manifest (es : List FTree) : List String :=
  osWalkFiles "" (insertManifest es)

/-- The bytes written to `manifest.txt`: one relative path per line. -/
def manifestText (es : List FTree) : String :=
  String.join ((write_manifest es).map (fun l => l ++ "\n"))

/-! ## Part Assembler (`merge_gguf_parts`, source lines 101–126) -/

/-- A flat directory for the assembler: file name paired with byte content
(bytes as `List Nat`). -/
abbrev MDir := List (String × List Nat)

/-- Listing of the names of `d`. -/
def mnames (d : MDir) : List String := d.map Prod.fst

/-- First entry of that name. -/
def mfind (d : MDir) (n : String) : Option (List Nat) :=
  (d.find? (fun e => e.1 == n)).map Prod.snd

/-- Bytes of file `n` (empty if absent; reads in the script only happen on
files known to exist). -/
def mread (d : MDir) (n : String) : List Nat := (mfind d n).getD []

/-- Write file `n` with content `c`: overwrite in place, or create at the
end of the listing. -/
def mwrite : MDir → String → List Nat → MDir
  | [], n, c => [(n, c)]
  | e :: d, n, c => if e.1 == n then (n, c) :: d else e :: mwrite d n c

/-- Delete file `n`; models `os.remove`. -/
def mremove (d : MDir) (n : String) : MDir := d.filter fun e => e.1 != n

/-- Does a name match the glob `*-of-*.gguf` of source line 103?  The glob
matches names (not starting with a dot, no path separator) that end in
`.gguf` with the infix `-of-` occurring before that extension. -/
def matchesPartPattern (n : String) : Bool :=
  !(startsWithB "." n) && !(n.data.contains '/') && endsWithB ".gguf" n
    && hasSubB "-of-".data (n.data.take (n.data.length - 5))

/-- Source line 104: `sorted(glob.glob(pattern))` — the matching names in
lexical order. -/
def partCandidates (d : MDir) : List String :=
  sortNames ((mnames d).filter matchesPartPattern)

/-- Source lines 108–110: name of the merged output, the portion of the
first part's name before the first `-00001-of-` marker plus `-full.gguf`. -/
def mergedName (firstPart : String) : String :=
  String.mk (beforeMarker "-00001-of-".data firstPart.data) ++ "-full.gguf"

/-- Source lines 101–126: detect the part group, concatenate the parts in
sorted order into the merged output (the output is created/truncated before
the copy loop), then delete every part.  Returns the merged path (`none`
when zero or one candidate) and the resulting directory. -/
def merge_gguf_parts (d : MDir) : Option String × MDir :=
  let parts := partCandidates d
  if parts.length ≤ 1 then (none, d)
  else
    let full := mergedName (parts.headD "")
    let d1 := mwrite d full []
    let d2 := parts.foldl (fun acc p => mwrite acc full (mread acc full ++ mread acc p)) d1
    let d3 := parts.foldl mremove d2
    (some full, d3)

/-- The merged output name the assembler derives for directory `d`. -/
def mergeFullName (d : MDir) : String := mergedName ((partCandidates d).headD "")

/-- The concatenation, in sorted part order, of the original byte contents
of `d`'s part candidates. -/
def mergeConcat (d : MDir) : List Nat := ((partCandidates d).map (mread d)).flatten

/-! ## Resource gate and Job Executor (`check_disk_space`, `download_model`,
source lines 48–52 and 131–177) -/

/-- Source lines 48–52.  The script computes `free / 1024**3 < required_gb`
in floats; this is embedded as the exact rational inequality
`free / 2^30 < required`, written gcd-free over `Int`
(`free * required.den < required.num * 2^30`) so it evaluates by `decide`. -/
def check_disk_space (freeBytes : Nat) (requiredGb : ℚ) : Except String Unit :=
  if (freeBytes : Int) * (requiredGb.den : Int) < requiredGb.num * 1073741824 then
    .error "Not enough disk space"
  else .ok ()

/-- Outcome record built by `download_model` (the `dict` of lines 166/177):
repository id, then either success with the optional merged-file path, or
failure with the last error message.  Elapsed time and on-disk size are
environmental and not modelled. -/
inductive JobResult where
  | ok (repo : String) (merged : Option String)
  | failed (repo : String) (error : String)
deriving Repr, DecidableEq

/-- Repository id carried by a result. -/
def resultRepo : JobResult → String
  | .ok r _ => r
  | .failed r _ => r

/-- One job as `download_model` receives it: configuration plus oracles for
the external effects.  `fetch a` is the outcome of `snapshot_download` on
attempt `a` (1-based); `manifestStep`/`verifyStep`/`mergeStep` are the
outcomes of the three post-processing calls on attempt `a`, each able to
raise (`Except.error`), `mergeStep` returning the optional merged path. -/
structure Job where
  repo : String
  maxRetries : Nat
  backoff : Nat
  hfHome : String
  minDisk : ℚ
  freeBytes : Nat
  skipManifest : Bool
  skipVerify : Bool
  fetch : Nat → Except String Unit
  manifestStep : Nat → Except String Unit
  verifyStep : Nat → Except String Unit
  mergeStep : Nat → Except String (Option String)

/-- Source lines 149–169, the body of one `try`: fetch, then (unless
skipped) manifest writing and checksum verification, then part merging.
Any error escapes to the enclosing handler — including errors raised after
the fetch succeeded. -/
def attemptBody (j : Job) (a : Nat) : Except String (Option String) :=
  match j.fetch a with
  | .error e => .error e
  | .ok _ =>
    match (if j.skipManifest then Except.ok () else j.manifestStep a) with
    | .error e => .error e
    | .ok _ =>
      match (if j.skipVerify then Except.ok () else j.verifyStep a) with
      | .error e => .error e
      | .ok _ => j.mergeStep a

/-- Trace of the retry loop: backoff delays slept (in seconds, in order),
number of fetch invocations, and the returned record (`none` models falling
off the loop, which happens exactly when `max_retries = 0`). -/
structure LoopOut where
  sleeps : List Nat
  calls : Nat
  result : Option JobResult
deriving Repr, DecidableEq

/-- Source lines 148–177: `for attempt in range(1, max_retries + 1)`.
`fuel` is the number of remaining permitted attempts
(`max_retries - attempt + 1`); `fuel = 0` after a failure is exactly the
`attempt < max_retries` test being false. -/
def runLoop (j : Job) (attempt : Nat) : Nat → LoopOut
  | 0 => { sleeps := [], calls := 0, result := none }
  | fuel + 1 =>
    match attemptBody j attempt with
    | .ok merged =>
      { sleeps := [], calls := 1, result := some (.ok j.repo merged) }
    | .error e =>
      if fuel = 0 then
        { sleeps := [], calls := 1, result := some (.failed j.repo e) }
      else
        let w := j.backoff * 2 ^ (attempt - 1)
        let rest := runLoop j (attempt + 1) fuel
        { sleeps := w :: rest.sleeps, calls := rest.calls + 1, result := rest.result }

/-- Full outcome of one `download_model` call: the values written to the
process-wide `HF_HOME` environment setting during the call, the number of
fetch invocations, the backoff delays slept, and either the returned record
or an uncaught exception (`Except.error`). -/
structure ExecOutcome where
  envWrites : List String
  fetchCalls : Nat
  sleeps : List Nat
  outcome : Except String (Option JobResult)
deriving Repr

/-- Source lines 131–177.  Line 143 writes `HF_HOME` (always, before the
gate); line 144's `os.makedirs` is modelled as succeeding; line 145's disk
gate raises out of the function when free space is short — the exception is
not caught anywhere in `download_model`. -/
def download_model (j : Job) : ExecOutcome :=
  match check_disk_space j.freeBytes j.minDisk with
  | .error e =>
    { envWrites := [j.hfHome], fetchCalls := 0, sleeps := [], outcome := .error e }
  | .ok _ =>
    let r := runLoop j 1 j.maxRetries
    { envWrites := [j.hfHome], fetchCalls := r.calls, sleeps := r.sleeps,
      outcome := .ok r.result }

/-- The record a completed `download_model` call contributes to `results`
(`none` when `max_retries = 0`, where the Python function returns `None`). -/
def resultOf (j : Job) : Option JobResult :=
  match (download_model j).outcome with
  | .ok r => r
  | .error _ => none

/-- Source lines 207–232: collect one result per task in completion order.
An exception escaping `download_model` (equally from `fut.result()` in the
pooled branch) propagates and aborts the collection — no further results
are gathered.  Worker pools of any size only permute the completion order,
which theorems quantify over. -/
def runScheduler : List Job → Except String (List (Option JobResult))
  | [] => .ok []
  | j :: rest =>
    match (download_model j).outcome with
    | .error e => .error e
    | .ok r =>
      match runScheduler rest with
      | .error e => .error e
      | .ok rs => .ok (r :: rs)

/-! ## Concrete inputs used by counterexamples and witnesses -/

/-- A job whose every external step succeeds and whose gate passes
(100 GiB free against a 60 GB minimum). -/
def okJob : Job where
  repo := "ok-model"
  maxRetries := 3
  backoff := 5
  hfHome := "h"
  minDisk := 60
  freeBytes := 100 * 1073741824
  skipManifest := false
  skipVerify := false
  fetch := fun _ => .ok ()
  manifestStep := fun _ => .ok ()
  verifyStep := fun _ => .ok ()
  mergeStep := fun _ => .ok none

/-- A job whose fetch always succeeds but whose manifest write always
raises: exercises the handling of post-processing failures. -/
def postFailJob : Job :=
  { okJob with
    repo := "r1"
    maxRetries := 2
    manifestStep := fun _ => .error "postboom" }

/-- A job at a destination with only 10 GiB free against a 60 GB minimum:
its resource gate fails. -/
def starvedJob : Job :=
  { okJob with repo := "starved", freeBytes := 10 * 1073741824 }

/-- A job whose fetch fails on every attempt with a transfer error. -/
def netFailJob : Job :=
  { okJob with repo := "r4", fetch := fun _ => .error "neterr" }

/-- A second all-success job, for two-job runs. -/
def okJob2 : Job := { okJob with repo := "ok-model-2" }

/-- The spec's part-assembly example: three zero-padded parts with known
bytes, plus one unrelated file. -/
def exMergeDir : MDir :=
  [("model-00001-of-00003.gguf", [1]), ("extra.txt", [9]),
   ("model-00002-of-00003.gguf", [2]), ("model-00003-of-00003.gguf", [3])]

/-- A directory with a single matching part file. -/
def exSingleDir : MDir := [("model-00001-of-00002.gguf", [1])]

/-! ## Helper lemmas: the retry loop -/

/-- The loop performs at most `fuel` iterations, hence at most `fuel` fetch
invocations. -/
theorem runLoop_calls_le (j : Job) (fuel : Nat) : ∀ a, (runLoop j a fuel).calls ≤ fuel := by
  induction fuel with
  | zero => intro a; simp [runLoop]
  | succ fuel ih =>
    intro a
    simp only [runLoop]
    cases hb : attemptBody j a with
    | ok m => simp
    | error e =>
      by_cases hf : fuel = 0
      · simp [hf]
      · have h := ih (a + 1)
        simp only [if_neg hf]
        simpa using Nat.succ_le_succ h

/-- A loop granted at least one attempt performs at least one fetch. -/
theorem runLoop_calls_pos (j : Job) (fuel a : Nat) (h : 1 ≤ fuel) :
    1 ≤ (runLoop j a fuel).calls := by
  cases fuel with
  | zero => omega
  | succ fuel =>
    simp only [runLoop]
    cases hb : attemptBody j a with
    | ok m => simp
    | error e =>
      by_cases hf : fuel = 0
      · simp [hf]
      · simp [if_neg hf]

/-- The backoff delays slept by the loop started at attempt `a ≥ 1` are
`backoff * 2^(a-1), backoff * 2^a, …`, one fewer than the number of
attempts performed — whatever the attempt outcomes are. -/
theorem runLoop_sleeps_eq (j : Job) (fuel : Nat) :
    ∀ a, 1 ≤ a →
      (runLoop j a fuel).sleeps =
        (List.range ((runLoop j a fuel).calls - 1)).map
          (fun i => j.backoff * 2 ^ (a - 1 + i)) := by
  induction fuel with
  | zero => intro a _; simp [runLoop]
  | succ fuel ih =>
    intro a ha
    simp only [runLoop]
    cases hb : attemptBody j a with
    | ok m => simp
    | error e =>
      by_cases hf : fuel = 0
      · simp [hf]
      · simp only [if_neg hf]
        have hpos : 1 ≤ (runLoop j (a + 1) fuel).calls :=
          runLoop_calls_pos j fuel (a + 1) (by omega)
        obtain ⟨k, hk⟩ : ∃ k, (runLoop j (a + 1) fuel).calls = k + 1 :=
          ⟨(runLoop j (a + 1) fuel).calls - 1, by omega⟩
        have hrest := ih (a + 1) (by omega)
        rw [hk] at hrest
        simp only [hk]
        simp only [Nat.add_sub_cancel] at hrest ⊢
        rw [List.range_succ_eq_map]
        simp only [List.map_cons, List.map_map]
        rw [hrest]
        refine List.cons_eq_cons.mpr ⟨by simp, List.map_congr_left ?_⟩
        intro i _
        simp only [Function.comp_apply]
        congr 1
        congr 1
        omega

/-- When every attempt in the window fails, the loop uses all its fuel and
ends with a `failed` record carrying the error of the last attempt. -/
theorem runLoop_allFail (j : Job) (E : Nat → String) (fuel : Nat) :
    ∀ a, 1 ≤ fuel → (∀ k, k < fuel → attemptBody j (a + k) = .error (E (a + k))) →
      (runLoop j a fuel).calls = fuel ∧
      (runLoop j a fuel).result = some (.failed j.repo (E (a + fuel - 1))) := by
  induction fuel with
  | zero => intro a h; omega
  | succ fuel ih =>
    intro a _ hE
    have h0 : attemptBody j a = .error (E a) := by simpa using hE 0 (by omega)
    simp only [runLoop, h0]
    by_cases hf : fuel = 0
    · subst hf
      simp
    · simp only [if_neg hf]
      have hE' : ∀ k, k < fuel → attemptBody j (a + 1 + k) = .error (E (a + 1 + k)) := by
        intro k hk
        have := hE (k + 1) (by omega)
        simpa [Nat.add_assoc, Nat.add_comm 1 k] using this
      obtain ⟨hc, hr⟩ := ih (a + 1) (by omega) hE'
      refine ⟨by simp [hc], ?_⟩
      rw [hr]
      have harg : a + 1 + fuel - 1 = a + (fuel + 1) - 1 := by omega
      rw [harg]

/-- A loop granted at least one attempt always returns a record, and the
record carries the job's repository id. -/
theorem runLoop_result_some (j : Job) (fuel : Nat) :
    ∀ a, 1 ≤ fuel →
      ∃ jr, (runLoop j a fuel).result = some jr ∧ resultRepo jr = j.repo := by
  induction fuel with
  | zero => intro a h; omega
  | succ fuel ih =>
    intro a _
    simp only [runLoop]
    cases hb : attemptBody j a with
    | ok m => exact ⟨.ok j.repo m, by simp, rfl⟩
    | error e =>
      by_cases hf : fuel = 0
      · exact ⟨.failed j.repo e, by simp [hf], rfl⟩
      · obtain ⟨jr, h1, h2⟩ := ih (a + 1) (by omega)
        exact ⟨jr, by simp [if_neg hf, h1], h2⟩

/-- If the fetch of attempt `a` raises, the whole `try` body raises with
that error. -/
theorem attemptBody_fetch_err (j : Job) (a : Nat) (e : String)
    (h : j.fetch a = .error e) : attemptBody j a = .error e := by
  simp [attemptBody, h]

/-- If the fetch of attempt `a` succeeds but the (non-skipped) manifest
write raises, the whole `try` body raises with the manifest error: the
post-processing failure is indistinguishable from a fetch failure to the
handler. -/
theorem attemptBody_manifest_err (j : Job) (a : Nat) (e : String)
    (hf : j.fetch a = .ok ()) (hs : j.skipManifest = false)
    (hm : j.manifestStep a = .error e) : attemptBody j a = .error e := by
  simp [attemptBody, hf, hs, hm]

/-- A job whose gate passes returns its loop record as the call outcome. -/
theorem download_model_gate_ok (j : Job)
    (hg : check_disk_space j.freeBytes j.minDisk = Except.ok ()) :
    download_model j =
      { envWrites := [j.hfHome], fetchCalls := (runLoop j 1 j.maxRetries).calls,
        sleeps := (runLoop j 1 j.maxRetries).sleeps,
        outcome := .ok (runLoop j 1 j.maxRetries).result } := by
  simp [download_model, hg]

/-- A job whose gate passes contributes `resultOf` as outcome value. -/
theorem download_model_outcome_ok (j : Job)
    (hg : check_disk_space j.freeBytes j.minDisk = Except.ok ()) :
    (download_model j).outcome = .ok (resultOf j) := by
  simp [download_model, resultOf, hg]

/-- When every job's gate passes, the sequential collection completes and
gathers exactly the per-job records, in order. -/
theorem runScheduler_ok (js : List Job)
    (hok : ∀ j ∈ js, check_disk_space j.freeBytes j.minDisk = Except.ok ()) :
    runScheduler js = .ok (js.map resultOf) := by
  induction js with
  | nil => rfl
  | cons j rest ih =>
    have hj := hok j (List.mem_cons_self j rest)
    have hr := ih fun p hp => hok p (List.mem_cons_of_mem j hp)
    simp [runScheduler, download_model_outcome_ok j hj, hr]

/-- The gate-passing embedding of the script's float comparison agrees with
the exact rational reading of `free / 1024**3 < required_gb`. -/
theorem check_disk_space_gate_iff (free : Nat) (r : ℚ) :
    check_disk_space free r = Except.error "Not enough disk space"
      ↔ (free : ℚ) / (1024 ^ 3 : ℚ) < r := by
  have hden : (0 : ℚ) < (r.den : ℚ) := by exact_mod_cast r.pos
  have hiff : ((free : Int) * (r.den : Int) < r.num * 1073741824)
      ↔ (free : ℚ) / (1024 ^ 3 : ℚ) < r := by
    rw [div_lt_iff₀ (by norm_num : (0 : ℚ) < (1024 : ℚ) ^ 3)]
    rw [show ((1024 : ℚ) ^ 3) = (1073741824 : ℚ) by norm_num]
    conv_rhs => rw [← Rat.num_div_den r]
    rw [div_mul_eq_mul_div, lt_div_iff₀ hden]
    constructor
    · intro h; exact_mod_cast h
    · intro h; exact_mod_cast h
  unfold check_disk_space
  by_cases h : (free : Int) * (r.den : Int) < r.num * 1073741824
  · rw [if_pos h]
    exact ⟨fun _ => hiff.mp h, fun _ => rfl⟩
  · rw [if_neg h]
    constructor
    · intro hcontra; exact Except.noConfusion hcontra
    · intro hlt; exact absurd (hiff.mpr hlt) h

/-! ## Claim C1 -/

/-- Claim C1 as stated is false on the code: `postFailJob`'s fetch succeeds
on every attempt (attempts 1 and 2 return `ok`), yet because its manifest
write raises inside the same `try` block, the retry/backoff loop IS
re-entered — a second fetch happens after a 5 s backoff sleep. -/
theorem c1_counterexample :
    postFailJob.fetch 1 = Except.ok () ∧
    postFailJob.fetch 2 = Except.ok () ∧
    (download_model postFailJob).fetchCalls = 2 ∧
    (download_model postFailJob).sleeps = [5] :=
  ⟨rfl, rfl, rfl, rfl⟩

/-- Claim C1 amended: a post-processing failure (here: manifest writing)
after a successful fetch is caught by the same handler as fetch failures
and re-enters the retry/backoff loop, so the fetch is re-attempted up to
`maxRetries` times; the post-processing error reaches the job's final
error state exactly when it recurs on the last permitted attempt. -/
theorem c1_post_failure_retries (j : Job) (E : Nat → String)
    (hg : check_disk_space j.freeBytes j.minDisk = Except.ok ())
    (hm : 1 ≤ j.maxRetries)
    (hfetch : ∀ a, j.fetch a = Except.ok ())
    (hsm : j.skipManifest = false)
    (hman : ∀ a, j.manifestStep a = Except.error (E a)) :
    (download_model j).fetchCalls = j.maxRetries ∧
    (download_model j).outcome =
      Except.ok (some (JobResult.failed j.repo (E j.maxRetries))) ∧
    (download_model j).sleeps =
      (List.range (j.maxRetries - 1)).map (fun i => j.backoff * 2 ^ i) := by
  have hbody : ∀ k, k < j.maxRetries → attemptBody j (1 + k) = .error (E (1 + k)) :=
    fun k _ => attemptBody_manifest_err j (1 + k) (E (1 + k)) (hfetch _) hsm (hman _)
  obtain ⟨hc, hr⟩ := runLoop_allFail j E j.maxRetries 1 hm hbody
  have hs := runLoop_sleeps_eq j j.maxRetries 1 le_rfl
  rw [download_model_gate_ok j hg]
  refine ⟨hc, ?_, ?_⟩
  · rw [hr]
    have : 1 + j.maxRetries - 1 = j.maxRetries := by omega
    rw [this]
  · rw [hs, hc]
    simp

/-- Witness for `c1_post_failure_retries` at `postFailJob`. -/
theorem c1_post_failure_retries_witness :
    (download_model postFailJob).fetchCalls = postFailJob.maxRetries ∧
    (download_model postFailJob).outcome =
      Except.ok (some (JobResult.failed postFailJob.repo "postboom")) ∧
    (download_model postFailJob).sleeps =
      (List.range (postFailJob.maxRetries - 1)).map
        (fun i => postFailJob.backoff * 2 ^ i) :=
  c1_post_failure_retries postFailJob (fun _ => "postboom") rfl (by decide)
    (fun _ => rfl) rfl (fun _ => rfl)

/-! ## Claim C2 -/

/-- Claim C2 as stated is false on the code: a run of one submitted job
whose resource gate fails ends with the gate's exception escaping the
collection loop — zero `JobResult`s exist for one `JobSpec`. -/
theorem c2_counterexample :
    runScheduler [starvedJob] = Except.error "Not enough disk space" := rfl

/-- Claim C2 amended: provided every submitted job's pre-flight disk gate
passes and at least one attempt is configured (`maxRetries ≥ 1`), the
scheduler — under any completion order `order`, which is what a worker
pool of any size `W ≥ 1` produces — collects exactly one record per
submitted job, each record present (`some`) and carrying its job's
repository id. -/
theorem c2_one_result_per_job (jobs order : List Job)
    (hperm : order.Perm jobs)
    (hok : ∀ j ∈ jobs, check_disk_space j.freeBytes j.minDisk = Except.ok ())
    (hretry : ∀ j ∈ jobs, 1 ≤ j.maxRetries) :
    runScheduler order = Except.ok (order.map resultOf) ∧
    (order.map resultOf).length = jobs.length ∧
    ∀ j ∈ order, ∃ jr, resultOf j = some jr ∧ resultRepo jr = j.repo := by
  have hok' : ∀ j ∈ order, check_disk_space j.freeBytes j.minDisk = Except.ok () :=
    fun j hj => hok j (hperm.mem_iff.mp hj)
  refine ⟨runScheduler_ok order hok', ?_, ?_⟩
  · rw [List.length_map]
    exact hperm.length_eq
  · intro j hj
    have hg := hok' j hj
    have hm := hretry j (hperm.mem_iff.mp hj)
    obtain ⟨jr, h1, h2⟩ := runLoop_result_some j j.maxRetries 1 hm
    refine ⟨jr, ?_, h2⟩
    simp [resultOf, download_model, hg, h1]

/-- Witness for `c2_one_result_per_job` on a two-job run collected in
swapped (completion) order. -/
theorem c2_one_result_per_job_witness :
    runScheduler [okJob2, okJob] = Except.ok ([okJob2, okJob].map resultOf) ∧
    ([okJob2, okJob].map resultOf).length = [okJob, okJob2].length ∧
    (∀ j ∈ [okJob2, okJob], ∃ jr, resultOf j = some jr ∧ resultRepo jr = j.repo) :=
  c2_one_result_per_job [okJob, okJob2] [okJob2, okJob] (List.Perm.swap _ _ _)
    (by intro j hj; fin_cases hj <;> rfl)
    (by intro j hj; fin_cases hj <;> decide)

/-! ## Claim C3 -/

/-- Claim C3 as stated is false on the code: with `starvedJob` submitted
first and a healthy sibling second, the gate failure is not recorded in
any job's result — it escapes `download_model` uncaught and aborts the
whole run, so the sibling job yields no result either. -/
theorem c3_counterexample :
    (download_model starvedJob).outcome = Except.error "Not enough disk space" ∧
    runScheduler [starvedJob, okJob] = Except.error "Not enough disk space" :=
  ⟨rfl, rfl⟩

/-- Claim C3 amended: when free space is below the configured minimum the
gate does fail the job before any fetch invocation (zero fetch calls), but
the failure is raised as an uncaught exception rather than recorded in the
job's result: once the collection loop reaches that job (all jobs before
it passing their gates), the whole run aborts with the gate error, and the
jobs after it are never collected. -/
theorem c3_gate_aborts_run (j : Job) (pre post : List Job)
    (hshort : check_disk_space j.freeBytes j.minDisk
      = Except.error "Not enough disk space")
    (hpre : ∀ p ∈ pre, check_disk_space p.freeBytes p.minDisk = Except.ok ()) :
    (download_model j).fetchCalls = 0 ∧
    (download_model j).outcome = Except.error "Not enough disk space" ∧
    runScheduler (pre ++ j :: post) = Except.error "Not enough disk space" := by
  refine ⟨by simp [download_model, hshort], by simp [download_model, hshort], ?_⟩
  induction pre with
  | nil => simp [runScheduler, download_model, hshort]
  | cons p rest ih =>
    have hp := hpre p (List.mem_cons_self p rest)
    have hr := ih fun q hq => hpre q (List.mem_cons_of_mem p hq)
    simp [runScheduler, download_model_outcome_ok p hp, hr]

/-- Witness for `c3_gate_aborts_run`: a three-job run whose middle job is
starved of disk space. -/
theorem c3_gate_aborts_run_witness :
    (download_model starvedJob).fetchCalls = 0 ∧
    (download_model starvedJob).outcome = Except.error "Not enough disk space" ∧
    runScheduler ([okJob] ++ starvedJob :: [okJob2])
      = Except.error "Not enough disk space" :=
  c3_gate_aborts_run starvedJob [okJob] [okJob2] rfl
    (by intro p hp; fin_cases hp <;> rfl)

/-! ## Claim C4 -/

/-- Claim C4: for a job whose gate passes, (i) the executor makes at most
`maxRetries` fetch attempts; (ii) whatever the attempt outcomes, the
delays slept are `backoff * 2^0, backoff * 2^1, …` — i.e. the delay before
retry attempt `attempt+1` is `backoff * 2^(attempt-1)` seconds, giving
5, 10, 20, 40, … for `backoff = 5` — one delay per non-final failed
attempt; and (iii) when every fetch fails, the executor uses exactly
`maxRetries` attempts and terminates the job with status `failed` carrying
the last attempt's error. -/
theorem c4_backoff_and_exhaustion (j : Job) (E : Nat → String)
    (hg : check_disk_space j.freeBytes j.minDisk = Except.ok ())
    (hm : 1 ≤ j.maxRetries) :
    (download_model j).fetchCalls ≤ j.maxRetries ∧
    (download_model j).sleeps =
      (List.range ((download_model j).fetchCalls - 1)).map
        (fun i => j.backoff * 2 ^ i) ∧
    ((∀ a, j.fetch a = Except.error (E a)) →
      (download_model j).fetchCalls = j.maxRetries ∧
      (download_model j).outcome =
        Except.ok (some (JobResult.failed j.repo (E j.maxRetries)))) := by
  rw [download_model_gate_ok j hg]
  refine ⟨runLoop_calls_le j j.maxRetries 1, ?_, ?_⟩
  · have hs := runLoop_sleeps_eq j j.maxRetries 1 le_rfl
    rw [hs]
    simp
  · intro hfetch
    have hbody : ∀ k, k < j.maxRetries → attemptBody j (1 + k) = .error (E (1 + k)) :=
      fun k _ => attemptBody_fetch_err j (1 + k) (E (1 + k)) (hfetch _)
    obtain ⟨hc, hr⟩ := runLoop_allFail j E j.maxRetries 1 hm hbody
    refine ⟨hc, ?_⟩
    rw [hr]
    have : 1 + j.maxRetries - 1 = j.maxRetries := by omega
    rw [this]

/-- Witness for `c4_backoff_and_exhaustion` at `netFailJob` (three failing
attempts, delays 5 s and 10 s). -/
theorem c4_backoff_and_exhaustion_witness :
    (download_model netFailJob).fetchCalls ≤ netFailJob.maxRetries ∧
    (download_model netFailJob).sleeps =
      (List.range ((download_model netFailJob).fetchCalls - 1)).map
        (fun i => netFailJob.backoff * 2 ^ i) ∧
    ((∀ a, netFailJob.fetch a = Except.error "neterr") →
      (download_model netFailJob).fetchCalls = netFailJob.maxRetries ∧
      (download_model netFailJob).outcome =
        Except.ok (some (JobResult.failed netFailJob.repo "neterr"))) :=
  c4_backoff_and_exhaustion netFailJob (fun _ => "neterr") rfl (by decide)

/-! ## Claim C9 -/

/-- Claim C9 as stated is false on the code: the cache-root environment
setting is written during each job's execution, not at most once before
any job starts — a single job's executor performs one write, and a two-job
run performs two writes in total. -/
theorem c9_counterexample :
    (download_model okJob).envWrites = ["h"] ∧
    ((download_model okJob).envWrites ++ (download_model okJob2).envWrites).length
      = 2 :=
  ⟨rfl, rfl⟩

/-- Claim C9 amended: each job's executor writes the cache-root setting
exactly once, at the start of the job (line 143, before the gate and any
fetch), and it writes the job's configured value; since every job of one
run is invoked with the same configured cache root, every write in the run
stores that same value — the observable value never changes, but it is
written once per job rather than once per run. -/
theorem c9_one_write_per_job (jobs : List Job) (h : String)
    (hsame : ∀ j ∈ jobs, j.hfHome = h) :
    ∀ j ∈ jobs, (download_model j).envWrites = [h] := by
  intro j hj
  have hh := hsame j hj
  unfold download_model
  cases check_disk_space j.freeBytes j.minDisk
  · simp [hh]
  · simp [hh]

/-- Witness for `c9_one_write_per_job` on a two-job run sharing cache root
`"h"`. -/
theorem c9_one_write_per_job_witness :
    (download_model okJob).envWrites = ["h"] ∧
    (download_model okJob2).envWrites = ["h"] :=
  ⟨c9_one_write_per_job [okJob, okJob2] "h" (by intro j hj; fin_cases hj <;> rfl)
      okJob (by simp),
   c9_one_write_per_job [okJob, okJob2] "h" (by intro j hj; fin_cases hj <;> rfl)
      okJob2 (by simp)⟩

/-! ## Helper lemmas: the manifest writer -/

/-- Creating `manifest.txt` is idempotent on the tree's listing: once the
file exists, re-opening it for writing only truncates it. -/
theorem insertManifest_idem (es : List FTree) :
    insertManifest (insertManifest es) = insertManifest es := by
  cases h : hasTopFile es "manifest.txt"
  · have h2 : hasTopFile (es ++ [FTree.file "manifest.txt"]) "manifest.txt" = true := by
      simp [hasTopFile, List.any_append]
    simp [insertManifest, h, h2]
  · simp [insertManifest, h]

/-- Appending a top-level file extends the file listing of that level. -/
theorem filesAt_append_file (pre : String) (es : List FTree) (n : String) :
    filesAt pre (es ++ [FTree.file n]) = filesAt pre es ++ [pre ++ n] := by
  induction es with
  | nil => rfl
  | cons e rest ih => cases e <;> simp [filesAt, ih]

/-- Appending a top-level file adds nothing below the other entries. -/
theorem walkList_append_file (pre : String) (es : List FTree) (n : String) :
    walkList pre (es ++ [FTree.file n]) = walkList pre es := by
  induction es with
  | nil => simp [walkList, walkEntry]
  | cons e rest ih => simp [walkList, ih]

/-! ## Claim C5 -/

/-- Claim C5 as stated is false on the code: for a directory containing
exactly `a.bin` and `sub/b.bin`, the written manifest has three lines, not
two — `manifest.txt` is created before `os.walk` runs and is therefore
listed itself. -/
theorem c5_counterexample :
    write_manifest [FTree.file "a.bin", FTree.dir "sub" [FTree.file "b.bin"]]
      = ["a.bin", "manifest.txt", "sub/b.bin"] := by decide

/-- Claim C5 amended: the manifest lists every regular file under the
directory INCLUDING the manifest file itself (one relative path per line,
root files before subdirectory files): for `{a.bin, sub/b.bin}` it has the
three lines `a.bin`, `manifest.txt`, `sub/b.bin`; in general, on a tree
not yet holding a manifest, the lines are the top-level files, then
`manifest.txt`, then the files below the subdirectories; and re-running
the writer on the unchanged tree reproduces byte-identical output. -/
theorem c5_manifest_lists_itself :
    (write_manifest [FTree.file "a.bin", FTree.dir "sub" [FTree.file "b.bin"]]
      = ["a.bin", "manifest.txt", "sub/b.bin"]) ∧
    (∀ es : List FTree, hasTopFile es "manifest.txt" = false →
      write_manifest es = filesAt "" es ++ ["manifest.txt"] ++ walkList "" es) ∧
    (∀ es : List FTree, manifestText (insertManifest es) = manifestText es) := by
  refine ⟨by decide, ?_, ?_⟩
  · intro es h
    unfold write_manifest osWalkFiles insertManifest
    rw [h]
    simp only [Bool.false_eq_true, if_false]
    rw [filesAt_append_file, walkList_append_file]
    simp
  · intro es
    unfold manifestText write_manifest
    rw [insertManifest_idem]

/-- Witness for the hypothesis-bearing part of `c5_manifest_lists_itself`. -/
theorem c5_manifest_lists_itself_witness :
    write_manifest [FTree.file "a.bin", FTree.dir "sub" [FTree.file "b.bin"]]
      = filesAt "" [FTree.file "a.bin", FTree.dir "sub" [FTree.file "b.bin"]]
        ++ ["manifest.txt"]
        ++ walkList "" [FTree.file "a.bin", FTree.dir "sub" [FTree.file "b.bin"]] :=
  c5_manifest_lists_itself.2.1 _ (by decide)

/-! ## Claim C6 -/

/-- Claim C6 as stated is false on the code: the file `data.bin` has true
digest `"ab"` under the manifest's algorithm, the manifest's expected
digest `"AB"` differs from it only in letter case, yet the verifier
reports `mismatch`, not `verified` — the comparison is case-sensitive. -/
theorem c6_counterexample :
    verify_checksums (fun _ => "ab") (fun _ => "cd")
      [("m.sha256", "AB  data.bin"), ("data.bin", "x")]
      = [VerifyOutcome.mismatch "data.bin" "AB" "ab"] ∧
    lowerStr "AB" = lowerStr "ab" :=
  ⟨by decide, by decide⟩

/-- Claim C6 amended: for every checksum-manifest entry whose referenced
file exists, the verifier compares the computed digest to the expected
digest by exact string equality: an expected digest that differs from the
file's true digest — even only in letter case — is reported as a
`mismatch`, not as `verified`. -/
theorem c6_exact_compare (sha256Hex md5Hex : String → String) (d : VDir)
    (chk line content : String)
    (h2 : 2 ≤ (splitWs line).length)
    (hfile : lookupFile d (stripStars ((splitWs line).getLastD "")) = some content)
    (hcase : lowerStr ((splitWs line).headD "")
      = lowerStr (if usesSha256 chk then sha256Hex content else md5Hex content))
    (hne : (splitWs line).headD ""
      ≠ (if usesSha256 chk then sha256Hex content else md5Hex content)) :
    verifyLine sha256Hex md5Hex d chk line
      = some (VerifyOutcome.mismatch (stripStars ((splitWs line).getLastD ""))
          ((splitWs line).headD "")
          (if usesSha256 chk then sha256Hex content else md5Hex content)) := by
  simp only [verifyLine]
  rw [if_neg (by omega : ¬ (splitWs line).length < 2)]
  simp only [hfile]
  have hba : ((if usesSha256 chk then sha256Hex content else md5Hex content)
      == (splitWs line).headD "") = false :=
    beq_eq_false_iff_ne.mpr (Ne.symm hne)
  rw [hba]
  simp

/-- Witness for `c6_exact_compare`: expected `"AB"`, true digest `"ab"`. -/
theorem c6_exact_compare_witness :
    verifyLine (fun _ => "ab") (fun _ => "cd")
      [("m.sha256", "AB  data.bin"), ("data.bin", "x")] "m.sha256" "AB  data.bin"
      = some (VerifyOutcome.mismatch
          (stripStars ((splitWs "AB  data.bin").getLastD ""))
          ((splitWs "AB  data.bin").headD "")
          (if usesSha256 "m.sha256" then (fun _ => "ab") "x"
            else (fun _ => "cd") "x")) :=
  c6_exact_compare (fun _ => "ab") (fun _ => "cd") _ "m.sha256" "AB  data.bin" "x"
    (by decide) (by decide) (by decide) (by decide)

/-! ## Claim C7 -/

/-- Claim C7 is right and the code is wrong (code bug): a manifest named
`w.sha256sum` is recognized by the extension filter of line 66 as a
checksum manifest of the sha256 family, but line 80's algorithm selection
`chk.endswith('sha256')` is false for it (the name ends in `sum`), so the
128-bit md5 family is applied to its entries: an entry whose expected
value is the md5 digest verifies, and one whose expected value is the
sha256 digest mismatches. -/
theorem c7_sha256sum_hashed_with_md5 :
    isChecksumName "w.sha256sum" = true ∧
    usesSha256 "w.sha256sum" = false ∧
    verify_checksums (fun _ => "shadigest") (fun _ => "md5digest")
      [("w.sha256sum", "md5digest  data.bin"), ("data.bin", "payload")]
      = [VerifyOutcome.verified "data.bin"] ∧
    verify_checksums (fun _ => "shadigest") (fun _ => "md5digest")
      [("w.sha256sum", "shadigest  data.bin"), ("data.bin", "payload")]
      = [VerifyOutcome.mismatch "data.bin" "shadigest" "md5digest"] := by
  refine ⟨by decide, by decide, by decide, by decide⟩

/-! ## Helper lemmas: the part assembler's directory operations -/

/-- Reading back a written file yields the written content. -/
theorem mfind_mwrite_self (d : MDir) (n : String) (c : List Nat) :
    mfind (mwrite d n c) n = some c := by
  induction d with
  | nil => simp [mwrite, mfind, List.find?]
  | cons e rest ih =>
    by_cases he : (e.1 == n) = true
    · simp [mwrite, he, mfind, List.find?]
    · simp only [mwrite, he, Bool.false_eq_true, if_false]
      simpa [mfind, List.find?, he] using ih

/-- Reading back a written file yields the written content. -/
theorem mread_mwrite_self (d : MDir) (n : String) (c : List Nat) :
    mread (mwrite d n c) n = c := by
  simp [mread, mfind_mwrite_self]

/-- Writing one file leaves every other file's content unchanged. -/
theorem mfind_mwrite_ne (d : MDir) (n p : String) (c : List Nat) (hpn : p ≠ n) :
    mfind (mwrite d n c) p = mfind d p := by
  induction d with
  | nil =>
    have : (n == p) = false := beq_eq_false_iff_ne.mpr (Ne.symm hpn)
    simp [mwrite, mfind, List.find?, this]
  | cons e rest ih =>
    by_cases he : (e.1 == n) = true
    · have he' : e.1 = n := beq_iff_eq.mp he
      have h1 : (n == p) = false := beq_eq_false_iff_ne.mpr (Ne.symm hpn)
      simp [mwrite, he, mfind, List.find?, h1, he']
    · simp only [mwrite, he, Bool.false_eq_true, if_false]
      by_cases hep : (e.1 == p) = true
      · simp [mfind, List.find?, hep]
      · simpa [mfind, List.find?, hep] using ih

/-- Writing one file leaves every other file's content unchanged. -/
theorem mread_mwrite_ne (d : MDir) (n p : String) (c : List Nat) (hpn : p ≠ n) :
    mread (mwrite d n c) p = mread d p := by
  simp [mread, mfind_mwrite_ne d n p c hpn]

/-- Overwriting a just-written file keeps only the second content. -/
theorem mwrite_mwrite (d : MDir) (n : String) (c c2 : List Nat) :
    mwrite (mwrite d n c) n c2 = mwrite d n c2 := by
  induction d with
  | nil => simp [mwrite]
  | cons e rest ih =>
    by_cases he : (e.1 == n) = true
    · simp [mwrite, he]
    · simp [mwrite, he, ih]

/-- The copy loop of lines 114–117, accumulated: starting from the
truncated output `n` holding `c`, appending the reads of `ps` (none of
which is `n` itself) leaves `n` holding `c` followed by the concatenation
of the original contents of `ps`. -/
theorem mergeFold_eq (ps : List String) (n : String) :
    ∀ (d : MDir) (c : List Nat), (∀ p ∈ ps, p ≠ n) →
      ps.foldl (fun acc p => mwrite acc n (mread acc n ++ mread acc p)) (mwrite d n c)
        = mwrite d n (c ++ (ps.map (mread d)).flatten) := by
  induction ps with
  | nil => intro d c _; simp
  | cons p rest ih =>
    intro d c hne
    have hp : p ≠ n := hne p (List.mem_cons_self p rest)
    have hstep :
        mwrite (mwrite d n c) n
            (mread (mwrite d n c) n ++ mread (mwrite d n c) p)
          = mwrite d n (c ++ mread d p) := by
      rw [mread_mwrite_self, mread_mwrite_ne d n p c hp, mwrite_mwrite]
    simp only [List.foldl_cons, hstep]
    rw [ih d (c ++ mread d p) fun q hq => hne q (List.mem_cons_of_mem p hq)]
    simp [List.append_assoc]

/-- The deletion loop of lines 120–125, accumulated: removing every name
of `ps` filters the directory to the entries whose names avoid `ps`. -/
theorem removeFold_eq (ps : List String) :
    ∀ d : MDir, ps.foldl mremove d = d.filter fun e => !(ps.contains e.1) := by
  induction ps with
  | nil =>
    intro d
    simp [List.filter_eq_self]
  | cons p rest ih =>
    intro d
    simp only [List.foldl_cons]
    rw [ih (mremove d p)]
    unfold mremove
    rw [List.filter_filter]
    apply List.filter_congr
    intro e _
    simp only [List.contains_cons]
    cases hep : (e.1 == p) <;> cases hrest : rest.contains e.1 <;> simp [bne, hep, hrest]

/-- Filtering by a predicate on names that holds at `n` does not affect
the lookup of `n`. -/
theorem mfind_filter_of_pred (d : MDir) (P : String → Bool) (n : String)
    (hP : P n = true) : mfind (d.filter fun e => P e.1) n = mfind d n := by
  induction d with
  | nil => rfl
  | cons e rest ih =>
    by_cases hen : (e.1 == n) = true
    · have he' : e.1 = n := beq_iff_eq.mp hen
      rw [List.filter_cons]
      rw [he', hP]
      simp [mfind, List.find?, he']
    · rw [List.filter_cons]
      cases hpe : P e.1
      · simpa [mfind, List.find?, hen] using ih
      · simpa [mfind, List.find?, hen] using ih

/-- Names present after a write: the written name joins the others. -/
theorem mem_mnames_mwrite (d : MDir) (n m : String) (c : List Nat) :
    m ∈ mnames (mwrite d n c) ↔ m ∈ mnames d ∨ m = n := by
  induction d with
  | nil => simp [mwrite, mnames]
  | cons e rest ih =>
    simp only [mnames] at ih ⊢
    by_cases he : (e.1 == n) = true
    · have he' : e.1 = n := beq_iff_eq.mp he
      have hw : mwrite (e :: rest) n c = (n, c) :: rest := by simp [mwrite, he]
      rw [hw]
      simp only [List.map_cons, List.mem_cons, he']
      tauto
    · have hw : mwrite (e :: rest) n c = e :: mwrite rest n c := by simp [mwrite, he]
      rw [hw]
      simp only [List.map_cons, List.mem_cons]
      rw [ih]
      tauto

/-- A write preserves the absence of duplicate names. -/
theorem mnames_mwrite_nodup (d : MDir) (n : String) (c : List Nat)
    (hnd : (mnames d).Nodup) : (mnames (mwrite d n c)).Nodup := by
  induction d with
  | nil => simp [mwrite, mnames]
  | cons e rest ih =>
    simp only [mnames, List.map_cons, List.nodup_cons] at hnd
    obtain ⟨hout, hrest⟩ := hnd
    by_cases he : (e.1 == n) = true
    · have he' : e.1 = n := beq_iff_eq.mp he
      have hw : mwrite (e :: rest) n c = (n, c) :: rest := by simp [mwrite, he]
      rw [hw]
      simp only [mnames, List.map_cons, List.nodup_cons]
      exact ⟨by rw [← he']; exact hout, hrest⟩
    · have he' : e.1 ≠ n := by simpa using he
      have hw : mwrite (e :: rest) n c = e :: mwrite rest n c := by simp [mwrite, he]
      rw [hw]
      simp only [mnames, List.map_cons, List.nodup_cons]
      refine ⟨?_, ih hrest⟩
      intro hmem
      rcases (mem_mnames_mwrite rest n e.1 c).mp hmem with h' | h'
      · exact hout h'
      · exact he' h'

/-- Filtering by a predicate on names commutes with taking names. -/
theorem mnames_filter (d : MDir) (P : String → Bool) :
    mnames (d.filter fun e => P e.1) = (mnames d).filter P := by
  induction d with
  | nil => rfl
  | cons e rest ih =>
    rw [List.filter_cons]
    cases hpe : P e.1
    · simpa [mnames, List.filter_cons, hpe] using ih
    · simpa [mnames, List.filter_cons, hpe] using ih

/-- Sorted insertion permutes consing. -/
theorem insSorted_perm (x : String) (l : List String) :
    (insSorted x l).Perm (x :: l) := by
  induction l with
  | nil => simp [insSorted]
  | cons y ys ih =>
    by_cases h : (strLeB x y) = true
    · simp [insSorted, h]
    · simp only [insSorted, h, Bool.false_eq_true, if_false]
      exact (ih.cons y).trans (List.Perm.swap x y ys)

/-- Sorting permutes the list (the script's `sorted(...)`). -/
theorem sortNames_perm (l : List String) : (sortNames l).Perm l := by
  induction l with
  | nil => simp [sortNames]
  | cons x xs ih =>
    have : sortNames (x :: xs) = insSorted x (sortNames xs) := rfl
    rw [this]
    exact (insSorted_perm x (sortNames xs)).trans (ih.cons x)

/-- Membership is invariant under the sort. -/
theorem mem_sortNames (l : List String) (a : String) :
    a ∈ sortNames l ↔ a ∈ l :=
  (sortNames_perm l).mem_iff

/-- Length is invariant under the sort. -/
theorem length_sortNames (l : List String) :
    (sortNames l).length = l.length :=
  (sortNames_perm l).length_eq

/-- A duplicate-free list all of whose members are equal has at most one
element. -/
theorem nodup_all_eq_length_le_one (l : List String) (a : String)
    (hnd : l.Nodup) (hall : ∀ x ∈ l, x = a) : l.length ≤ 1 := by
  match l, hnd, hall with
  | [], _, _ => simp
  | [x], _, _ => simp
  | x :: y :: rest, hnd, hall =>
    exfalso
    have hx : x = a := hall x (by simp)
    have hy : y = a := hall y (by simp)
    simp only [List.nodup_cons, List.mem_cons] at hnd
    exact hnd.1 (Or.inl (hx.trans hy.symm))

/-- Boolean membership agrees with membership. -/
theorem contains_eq_false_iff (l : List String) (a : String) :
    (l.contains a = false) ↔ a ∉ l := by
  induction l with
  | nil => simp
  | cons x xs ih =>
    simp only [List.contains_cons, Bool.or_eq_false_iff, beq_eq_false_iff_ne,
      List.mem_cons, ih]
    tauto

/-- Shape of the assembler's result when at least two candidates exist and
the derived output name is not itself a candidate: the output holds the
concatenation of the candidates' original bytes and every candidate's
entry is removed. -/
theorem merge_eq_of_many (d : MDir) (h : ¬ ((partCandidates d).length ≤ 1))
    (hcol : mergeFullName d ∉ partCandidates d) :
    merge_gguf_parts d
      = (some (mergeFullName d),
         (mwrite d (mergeFullName d) (mergeConcat d)).filter
           (fun e => !((partCandidates d).contains e.1))) := by
  have hne : ∀ p ∈ partCandidates d, p ≠ mergeFullName d :=
    fun p hp heq => hcol (heq ▸ hp)
  simp only [merge_gguf_parts, mergeFullName, mergeConcat] at hne ⊢
  rw [if_neg h]
  rw [mergeFold_eq (partCandidates d) _ d [] hne]
  rw [removeFold_eq]
  rw [List.nil_append]

/-- Shape of the assembler's result with zero or one candidate: a no-op. -/
theorem merge_eq_of_few (d : MDir) (h : (partCandidates d).length ≤ 1) :
    merge_gguf_parts d = (none, d) := by
  simp only [merge_gguf_parts]
  rw [if_pos h]

/-! ## Claim C8 -/

/-- Claim C8: with zero or one glob-matching part file the assembler
returns nothing and changes nothing; with two or more, provided the
derived output name is not itself one of the matched names (true of every
group following the `NNNNN-of-NNNNN` naming convention), it returns the
merged path — the portion of the first sorted part's name before the
`-00001-of-` marker plus `-full.gguf` — whose content is the concatenation
of the parts' original bytes in lexically sorted name order (so every part
was read before any deletion), every part file is gone afterwards, and
every other file keeps its content. -/
theorem c8_part_assembly (d : MDir) :
    ((partCandidates d).length ≤ 1 → merge_gguf_parts d = (none, d)) ∧
    (2 ≤ (partCandidates d).length → mergeFullName d ∉ partCandidates d →
      ((merge_gguf_parts d).1 = some (mergeFullName d) ∧
       mread (merge_gguf_parts d).2 (mergeFullName d) = mergeConcat d ∧
       (∀ p ∈ partCandidates d, p ∉ mnames (merge_gguf_parts d).2) ∧
       (∀ q, q ∉ partCandidates d → q ≠ mergeFullName d →
         mread (merge_gguf_parts d).2 q = mread d q))) := by
  constructor
  · intro h1
    exact merge_eq_of_few d h1
  · intro h2 hcol
    have hif : ¬ ((partCandidates d).length ≤ 1) := by omega
    have heq := merge_eq_of_many d hif hcol
    have h1st : (merge_gguf_parts d).1 = some (mergeFullName d) := by rw [heq]
    have h2nd : (merge_gguf_parts d).2
        = (mwrite d (mergeFullName d) (mergeConcat d)).filter
            (fun e => !((partCandidates d).contains e.1)) := by rw [heq]
    refine ⟨h1st, ?_, ?_, ?_⟩
    · have hcf : ((partCandidates d).contains (mergeFullName d)) = false :=
        (contains_eq_false_iff _ _).mpr hcol
      have hPfull : (!((partCandidates d).contains (mergeFullName d))) = true := by
        rw [hcf]; rfl
      rw [h2nd]
      simp only [mread]
      rw [mfind_filter_of_pred _ (fun s => !((partCandidates d).contains s)) _ hPfull]
      rw [mfind_mwrite_self]
      rfl
    · intro p hp hmem
      rw [h2nd,
        mnames_filter (mwrite d (mergeFullName d) (mergeConcat d))
          (fun s => !((partCandidates d).contains s)),
        List.mem_filter] at hmem
      have hc : ((partCandidates d).contains p) = false := by simpa using hmem.2
      exact absurd hp ((contains_eq_false_iff _ _).mp hc)
    · intro q hq hqf
      have hcq : ((partCandidates d).contains q) = false :=
        (contains_eq_false_iff _ _).mpr hq
      have hPq : (!((partCandidates d).contains q)) = true := by rw [hcq]; rfl
      rw [h2nd]
      simp only [mread]
      rw [mfind_filter_of_pred _ (fun s => !((partCandidates d).contains s)) _ hPq]
      rw [mfind_mwrite_ne d (mergeFullName d) q (mergeConcat d) hqf]

/-- Witness for `c8_part_assembly`: the spec's example group
`model-0000K-of-00003.gguf` with bytes `[1]`, `[2]`, `[3]` (first branch
exercised on the single-part directory). -/
theorem c8_part_assembly_witness :
    (merge_gguf_parts exSingleDir = (none, exSingleDir)) ∧
    ((merge_gguf_parts exMergeDir).1 = some (mergeFullName exMergeDir) ∧
     mread (merge_gguf_parts exMergeDir).2 (mergeFullName exMergeDir)
       = mergeConcat exMergeDir ∧
     (∀ p ∈ partCandidates exMergeDir, p ∉ mnames (merge_gguf_parts exMergeDir).2) ∧
     (∀ q, q ∉ partCandidates exMergeDir → q ≠ mergeFullName exMergeDir →
       mread (merge_gguf_parts exMergeDir).2 q = mread exMergeDir q)) :=
  ⟨(c8_part_assembly exSingleDir).1 (by decide),
   (c8_part_assembly exMergeDir).2 (by decide) (by decide)⟩

/-! ## Claim C10 -/

/-- Claim C10: after a successful assembly (two or more candidates, the
derived output name not among them, no duplicate names), running the
assembler again on the resulting directory is a no-op — it returns nothing
and leaves the directory exactly as it was, because after the parts'
deletion at most the merged output itself can still match the part glob,
and one candidate never forms a group. -/
theorem c10_reassembly_noop (d : MDir) (hnd : (mnames d).Nodup)
    (h2 : 2 ≤ (partCandidates d).length)
    (hcol : mergeFullName d ∉ partCandidates d) :
    merge_gguf_parts ((merge_gguf_parts d).2) = (none, (merge_gguf_parts d).2) := by
  have hif : ¬ ((partCandidates d).length ≤ 1) := by omega
  have heq := merge_eq_of_many d hif hcol
  have h2nd : (merge_gguf_parts d).2
      = (mwrite d (mergeFullName d) (mergeConcat d)).filter
          (fun e => !((partCandidates d).contains e.1)) := by rw [heq]
  have hn3 : mnames (merge_gguf_parts d).2
      = (mnames (mwrite d (mergeFullName d) (mergeConcat d))).filter
          (fun s => !((partCandidates d).contains s)) := by
    rw [h2nd]
    exact mnames_filter (mwrite d (mergeFullName d) (mergeConcat d))
      (fun s => !((partCandidates d).contains s))
  have hall : ∀ x ∈ (mnames (merge_gguf_parts d).2).filter matchesPartPattern,
      x = mergeFullName d := by
    intro x hx
    rw [List.mem_filter] at hx
    obtain ⟨hx1, hx2⟩ := hx
    rw [hn3, List.mem_filter] at hx1
    obtain ⟨hx3, hx4⟩ := hx1
    have hx4' : ((partCandidates d).contains x) = false := by simpa using hx4
    have hxnot : x ∉ partCandidates d := (contains_eq_false_iff _ _).mp hx4'
    rcases (mem_mnames_mwrite d (mergeFullName d) x (mergeConcat d)).mp hx3 with h | h
    · exfalso
      apply hxnot
      rw [partCandidates, mem_sortNames, List.mem_filter]
      exact ⟨h, hx2⟩
    · exact h
  have hnd3 : (mnames (merge_gguf_parts d).2).Nodup := by
    rw [hn3]
    exact (mnames_mwrite_nodup d (mergeFullName d) (mergeConcat d) hnd).filter _
  have hlen : ((mnames (merge_gguf_parts d).2).filter matchesPartPattern).length ≤ 1 :=
    nodup_all_eq_length_le_one _ (mergeFullName d) (hnd3.filter _) hall
  have hcand : (partCandidates ((merge_gguf_parts d).2)).length ≤ 1 := by
    rw [partCandidates, length_sortNames]
    exact hlen
  exact merge_eq_of_few _ hcand

/-- Witness for `c10_reassembly_noop` on the spec's example group. -/
theorem c10_reassembly_noop_witness :
    merge_gguf_parts ((merge_gguf_parts exMergeDir).2)
      = (none, (merge_gguf_parts exMergeDir).2) :=
  c10_reassembly_noop exMergeDir (by decide) (by decide) (by decide)

end HFBD
